import Mathlib

/- Shallow embedding of the task-orchestration core of the reviewed
calculators: openquake/calculators/base.py, conditional_spectrum.py,
preclassical.py and post_risk.py.  Pure loops become structural
recursions; the lazy task generator and the stream of completion signals
become the lists of values they yield; broker side effects become an
explicit effect trace. -/

namespace OQ

/-- Error message used by the spec-modelled weighted block splitter for a
non-positive weight cap. -/
def invalidConfigMsg : String := "InvalidConfiguration"

/-- Modelled from the spec: the weighted block splitter
`openquake.baselib.general.block_splitter` is not among the reviewed
sources, only its callers are (conditional_spectrum.py line 144,
preclassical.py line 83).  Following spec section 4.1, this is the
streaming greedy worker: it keeps the current block `cur` with its running
weight `curw` and the group key `prevKey` of the last item seen; an
incoming item is appended to the current block unless its weight would
push the running total above `maxWeight` or its group key differs, in
which case the current block is emitted and a fresh block is started from
that item. -/
def splitGo {α κ : Type} [DecidableEq κ] (w : α → ℚ) (k : α → κ) (maxWeight : ℚ)
    (cur : List α) (curw : ℚ) (prevKey : Option κ) : List α → List (List α)
  | [] => if cur.isEmpty then [] else [cur]
  | x :: rest =>
    if cur.isEmpty then
      splitGo w k maxWeight [x] (w x) (some (k x)) rest
    else if maxWeight < curw + w x ∨ some (k x) ≠ prevKey then
      cur :: splitGo w k maxWeight [x] (w x) (some (k x)) rest
    else
      splitGo w k maxWeight (cur ++ [x]) (curw + w x) (some (k x)) rest

/-- Modelled from the spec: the weighted block splitter, spec section 4.1.
A non-positive `maxWeight` is an `InvalidConfiguration` error; otherwise
the input sequence is partitioned by the streaming greedy worker
`splitGo` starting from an empty current block. -/
def block_splitter {α κ : Type} [DecidableEq κ] (w : α → ℚ) (k : α → κ)
    (maxWeight : ℚ) (items : List α) : Except String (List (List α)) :=
  if maxWeight ≤ 0 then Except.error invalidConfigMsg
  else Except.ok (splitGo w k maxWeight [] 0 none items)

/-- The drain loop of `CalculatorNext.execute` (base.py lines 131-137):
while `computed < total` the control node blocks on `conn.drain_events()`.
Each drained completion signal carries an amount that the task-complete
callback adds to `computed` (the increment is modelled from spec section
4.4, the callback body not being among the reviewed sources).  The stream
of completion signals is modelled by the list of amounts it delivers.
The result is `none` when the loop would block forever waiting for a
signal that never arrives, and otherwise `some (trace, final)` where
`trace` lists the successive values of `computed` observed at the loop
condition and `final` is its value when the loop exits. -/
def executeDrainLoop (total computed : Nat) : List Nat → Option (List Nat × Nat)
  | [] => if computed < total then none else some ([computed], computed)
  | a :: rest =>
    if computed < total then
      (executeDrainLoop total (computed + a) rest).map (fun p => (computed :: p.1, p.2))
    else
      some ([computed], computed)

/-- The initial filling phase of `CalculatorNext.execute` (base.py lines
120-129): `for _ in xrange(concurrent_tasks)` submits the next block from
the task generator via `queue_next`, and a `StopIteration` from the
generator merely breaks out of the loop.  The generator is modelled by the
list of blocks it has left to yield; the value is the list of blocks
submitted, in submission order. -/
def executeFill {α : Type} : Nat → List α → List α
  | 0, _ => []
  | _ + 1, [] => []
  | n + 1, b :: rest => b :: executeFill n rest

/-- The task block size of `PostRiskCalculator.execute` (post_risk.py line
125): `blocksize = int(numpy.ceil(num_curves / (oq.concurrent_tasks or 1)))`,
where Python `or` replaces a zero `concurrent_tasks` by 1. -/
def postBlocksize (num_curves concurrent_tasks : Nat) : Nat :=
  let d := if concurrent_tasks = 0 then 1 else concurrent_tasks
  (num_curves + d - 1) / d

/-- The batching loop of `PostRiskCalculator.execute` (post_risk.py lines
126-141): each generated entry is appended to the buffer `krl_losses`;
whenever the buffer length reaches `blocksize` it is submitted to the
starmap and cleared, and a non-empty remainder is submitted after the
loop.  The value is the list of submitted batches, in submission order. -/
def submitLoop {α : Type} (blocksize : Nat) (buf : List α) : List α → List (List α)
  | [] => if buf.isEmpty then [] else [buf]
  | e :: rest =>
    let buf2 := buf ++ [e]
    if blocksize ≤ buf2.length then buf2 :: submitLoop blocksize [] rest
    else submitLoop blocksize buf2 rest

/-- Modelled from the spec: `openquake.baselib.general.AccumDict` is not
among the reviewed sources, only its callers are (preclassical.py lines
92-96, post_risk.py lines 60-65).  Spec sections 3 and 4.2: an
accumulating map from keys to values of an additive commutative monoid,
stored as an association list with pairwise distinct keys; reading a
missing key yields the identity element `0`, never an error. -/
def aget {κ V : Type} [DecidableEq κ] [AddCommMonoid V] : List (κ × V) → κ → V
  | [], _ => 0
  | (k0, v) :: rest, k => if k0 = k then v else aget rest k

/-- Modelled from the spec: store `v` at key `k` in the accumulating map,
replacing the existing entry when the key is present and appending a new
entry otherwise. -/
def aset {κ V : Type} [DecidableEq κ] : List (κ × V) → κ → V → List (κ × V)
  | [], k, v => [(k, v)]
  | (k0, v0) :: rest, k, v =>
    if k0 = k then (k, v) :: rest else (k0, v0) :: aset rest k v

/-- Modelled from the spec: merge of two accumulating maps (the
`AccumDict` addition used by `reduce`, spec section 4.2): each entry of
`b` is folded into `a`, adding its value elementwise to the existing value
at that key, the identity element standing in when the key is missing. -/
def amerge {κ V : Type} [DecidableEq κ] [AddCommMonoid V]
    (a b : List (κ × V)) : List (κ × V) :=
  b.foldl (fun acc kv => aset acc kv.1 (aget acc kv.1 + kv.2)) a

/-- Keys of an association list are pairwise distinct; the Python dict
underlying the accumulating map guarantees this for every stored map. -/
abbrev NodupKeys {κ V : Type} (m : List (κ × V)) : Prop := (m.map Prod.fst).Nodup

/-- Merging a finite collection of partial-result maps in sequence,
starting from the empty accumulator, as the starmap reduce does with the
completed task results. -/
def mergeAll {κ V : Type} [DecidableEq κ] [AddCommMonoid V]
    (l : List (List (κ × V))) : List (κ × V) :=
  l.foldl amerge []

/-- Observable broker actions of `signal_task_complete` (base.py lines
197-227): opening the broker connection and publishing a message body to a
routing key. -/
inductive BrokerEffect (α : Type) where
  | openConn : BrokerEffect α
  | publish (routingKey : String) (body : α) : BrokerEffect α
deriving DecidableEq

/-- Routing key format of base.py line 26, applied to a job id rendered as
a string: `oq.job.` ++ job id ++ `.tasks`. -/
def ROUTING_KEY_FMT (job_id : String) : String := "oq.job." ++ job_id ++ ".tasks"

/-- Key looked up in the kwargs of `signal_task_complete` (base.py line
218). -/
def jobIdKey : String := "job_id"

/-- Error raised by Python when the kwargs dict lookup at base.py line 218
misses. -/
def keyErrorMsg : String := "KeyError: job_id"

/-- First-match lookup in an association list, modelling a Python dict
read, with absence as `Option.none`. -/
def alookup {κ V : Type} [DecidableEq κ] : List (κ × V) → κ → Option V
  | [], _ => none
  | (k0, v) :: rest, k => if k0 = k then some v else alookup rest k

/-- Shallow embedding of `signal_task_complete` (base.py lines 197-227):
read the job id from the kwargs dict (a missing `job_id` key raises
`KeyError` before any broker connection is opened), then open the broker
connection and publish the kwargs dict itself as the message body to the
routing key obtained by formatting `ROUTING_KEY_FMT` with that job id.
The value is the ordered list of broker effects together with the
outcome. -/
def signal_task_complete (kwargs : List (String × String)) :
    List (BrokerEffect (List (String × String))) × Except String Unit :=
  match alookup kwargs jobIdKey with
  | none => ([], Except.error keyErrorMsg)
  | some jid =>
    ([BrokerEffect.openConn, BrokerEffect.publish (ROUTING_KEY_FMT jid) kwargs],
     Except.ok ())

/-- Routing key the control node binds its task-signal queue to in
`CalculatorNext.execute` (base.py lines 107-110): the same
`ROUTING_KEY_FMT` applied to the id of the job being run. -/
def executeQueueRoutingKey (job_id : String) : String := ROUTING_KEY_FMT job_id

/-- Job id used to instantiate concrete runs in the witnesses below. -/
def sampleJobId : String := "42"

/-- The initial filling loop submits exactly the first `n` blocks the
generator yields. -/
theorem executeFill_eq_take {α : Type} (n : Nat) (blocks : List α) :
    executeFill n blocks = blocks.take n := by
  induction blocks generalizing n with
  | nil => cases n <;> simp [executeFill]
  | cons b rest ih => cases n with
    | zero => simp [executeFill]
    | succ m => simp [executeFill, ih]

/-- C8: the initial filling phase of the control node submits exactly
`min concurrencyLimit (number of blocks the generator yields)` tasks: it
stops at the concurrency limit, and exhaustion of the generator before the
limit is reached is not an error, the loop merely submits the fewer blocks
that exist (base.py lines 120-129). -/
theorem C8_initial_fill {α : Type} (concurrencyLimit : Nat) (blocks : List α) :
    (executeFill concurrencyLimit blocks).length =
      min concurrencyLimit blocks.length ∧
    executeFill concurrencyLimit blocks = blocks.take concurrencyLimit := by
  refine ⟨?_, executeFill_eq_take _ _⟩
  rw [executeFill_eq_take]
  exact List.length_take _ _

/-- Concatenating the batches submitted by the post_risk batching loop
restores the buffer followed by the remaining entries. -/
theorem submitLoop_flatten {α : Type} (bs : Nat) (l buf : List α) :
    (submitLoop bs buf l).flatten = buf ++ l := by
  induction l generalizing buf with
  | nil => cases buf <;> simp [submitLoop]
  | cons e rest ih =>
    simp only [submitLoop]
    by_cases h : bs ≤ (buf ++ [e]).length
    · rw [if_pos h]
      simp [ih]
    · rw [if_neg h]
      simp [ih]

/-- Every batch submitted by the post_risk batching loop has at most
`blocksize` entries, provided the running buffer is below the block
size. -/
theorem submitLoop_length_le {α : Type} (bs : Nat) (l : List α) :
    ∀ buf : List α, buf.length < bs →
      ∀ b ∈ submitLoop bs buf l, b.length ≤ bs := by
  induction l with
  | nil =>
    intro buf hb b hbm
    cases buf with
    | nil => simp [submitLoop] at hbm
    | cons x xs =>
      simp [submitLoop] at hbm
      subst hbm
      exact le_of_lt hb
  | cons e rest ih =>
    intro buf hb b hbm
    simp only [submitLoop] at hbm
    by_cases h : bs ≤ (buf ++ [e]).length
    · rw [if_pos h] at hbm
      rcases List.mem_cons.mp hbm with h1 | h2
      · subst h1
        simp only [List.length_append, List.length_singleton]
        omega
      · exact ih [] (by simpa using Nat.lt_of_le_of_lt (Nat.zero_le _) hb) b h2
    · rw [if_neg h] at hbm
      refine ih (buf ++ [e]) ?_ b hbm
      simp only [List.length_append, List.length_singleton] at h ⊢
      omega

/-- The post_risk block size is positive whenever there is at least one
curve to build. -/
theorem postBlocksize_pos (nc ct : Nat) (h : 0 < nc) :
    0 < postBlocksize nc ct := by
  show 0 < (nc + (if ct = 0 then 1 else ct) - 1) / (if ct = 0 then 1 else ct)
  by_cases hct : ct = 0
  · simp only [if_pos hct]
    omega
  · simp only [if_neg hct]
    exact Nat.div_pos (by omega) (Nat.pos_of_ne_zero hct)

/-- C10: in `PostRiskCalculator.execute` (post_risk.py lines 123-141), the
concatenation of all submitted batches equals the generated sequence of
(k, r, l, losses) entries — a batch is submitted whenever it reaches
`blocksize` entries and the non-empty remainder is submitted after the
loop — and every batch holds at most
`blocksize = ceil(num_curves / concurrent_tasks)` entries, with
`concurrent_tasks` taken as 1 when it is zero. -/
theorem C10_post_risk_batching {α : Type} (num_curves ct : Nat)
    (entries : List α) (h : 0 < num_curves) :
    (submitLoop (postBlocksize num_curves ct) [] entries).flatten = entries ∧
    ∀ b ∈ submitLoop (postBlocksize num_curves ct) [] entries,
      b.length ≤ postBlocksize num_curves ct := by
  refine ⟨by simpa using submitLoop_flatten (postBlocksize num_curves ct) entries [], ?_⟩
  exact submitLoop_length_le _ _ [] (by simpa using postBlocksize_pos num_curves ct h)

/-- C10 witness: four curves, zero concurrent_tasks, three entries. -/
theorem C10_witness :
    0 < 4 ∧
    ((submitLoop (postBlocksize 4 0) [] [0, 1, 2]).flatten = [0, 1, 2] ∧
     ∀ b ∈ submitLoop (postBlocksize 4 0) [] [0, 1, 2],
       b.length ≤ postBlocksize 4 0) :=
  ⟨by decide, C10_post_risk_batching 4 0 [0, 1, 2] (by decide)⟩

/-- When the pending completion signals add up exactly to the remaining
work, the drain loop finishes, every observed value of `computed` stays
at most `total`, the values strictly below `total` are exactly the
non-terminal ones, and the loop exits with `computed = total`. -/
theorem executeDrainLoop_exact (total : Nat) (signals : List Nat) :
    ∀ computed, computed ≤ total → computed + signals.sum = total →
      ∃ mid, executeDrainLoop total computed signals = some (mid ++ [total], total) ∧
        ∀ c ∈ mid, c < total := by
  induction signals with
  | nil =>
    intro c hle hsum
    simp only [List.sum_nil, Nat.add_zero] at hsum
    subst hsum
    exact ⟨[], by simp [executeDrainLoop], by simp⟩
  | cons a rest ih =>
    intro c hle hsum
    simp only [List.sum_cons] at hsum
    by_cases hc : c < total
    · obtain ⟨mid, heq, hmid⟩ := ih (c + a) (by omega) (by omega)
      refine ⟨c :: mid, ?_, ?_⟩
      · simp only [executeDrainLoop, if_pos hc, heq, Option.map_some']
        simp
      · intro x hx
        rcases List.mem_cons.mp hx with h1 | h2
        · subst h1; exact hc
        · exact hmid x h2
    · have hct : c = total := by omega
      subst hct
      exact ⟨[], by simp [executeDrainLoop], by simp⟩

/-- C1: for every run of the control-node execute loop in which the
completion signals deliver exactly the total expected amount of work
(exactly-once delivery, spec section 4.5), the progress counter `computed`
is at most `total` at every point of the run, and the loop reaches its
terminal state — it stops draining completion signals and returns —
exactly once, exactly when `computed = total`: every non-terminal observed
value is strictly below `total` and the unique terminal value is `total`
(base.py lines 131-138). -/
theorem C1_tracker_invariant (total : Nat) (signals : List Nat)
    (h : signals.sum = total) :
    ∃ mid, executeDrainLoop total 0 signals = some (mid ++ [total], total) ∧
      (∀ c ∈ mid, c < total) ∧ ∀ c ∈ mid ++ [total], c ≤ total := by
  obtain ⟨mid, heq, hmid⟩ :=
    executeDrainLoop_exact total signals 0 (Nat.zero_le _) (by simpa using h)
  refine ⟨mid, heq, hmid, ?_⟩
  intro c hc
  rcases List.mem_append.mp hc with h1 | h2
  · exact le_of_lt (hmid c h1)
  · simp only [List.mem_singleton] at h2
    exact le_of_eq h2

/-- C1 witness: spec end-to-end scenario 4, a run with total 5 and signal
amounts [2, 1, 2]; computed progresses 0, 2, 3 and terminates at 5. -/
theorem C1_witness :
    List.sum [2, 1, 2] = 5 ∧
    ∃ mid, executeDrainLoop 5 0 [2, 1, 2] = some (mid ++ [5], 5) ∧
      (∀ c ∈ mid, c < 5) ∧ ∀ c ∈ mid ++ [5], c ≤ 5 :=
  ⟨by decide, C1_tracker_invariant 5 [2, 1, 2] (by decide)⟩

/-- Whenever the drain loop returns, the final value of the counter is at
least `total` and is the exact sum of the consumed prefix of signal
amounts: nothing is clamped and no error path exists. -/
theorem executeDrainLoop_returns (total : Nat) (signals : List Nat) :
    ∀ computed trace final,
      executeDrainLoop total computed signals = some (trace, final) →
      total ≤ final ∧ ∃ p q, signals = p ++ q ∧ final = computed + p.sum := by
  induction signals with
  | nil =>
    intro c t f h
    by_cases hc : c < total
    · simp [executeDrainLoop, if_pos hc] at h
    · simp only [executeDrainLoop, if_neg hc, Option.some_inj, Prod.mk.injEq] at h
      exact ⟨by omega, [], [], rfl, by simp [h.2.symm]⟩
  | cons a rest ih =>
    intro c t f h
    by_cases hc : c < total
    · simp only [executeDrainLoop, if_pos hc] at h
      cases hrec : executeDrainLoop total (c + a) rest with
      | none => rw [hrec] at h; simp at h
      | some p =>
        rw [hrec] at h
        simp only [Option.map_some', Option.some_inj, Prod.mk.injEq] at h
        obtain ⟨hge, p', q, hpq, hsum⟩ := ih (c + a) p.1 p.2 (by rw [hrec])
        refine ⟨by omega, a :: p', q, by simp [hpq], ?_⟩
        rw [← h.2, hsum, List.sum_cons]
        omega
    · simp only [executeDrainLoop, if_neg hc, Option.some_inj, Prod.mk.injEq] at h
      exact ⟨by omega, [], a :: rest, rfl, by simp [h.2.symm]⟩

/-- C5 counterexample: with total 5 and completion signal amounts [3, 3]
(a duplicate delivery), the drain loop of base.py lines 131-137 lets
`computed` reach 6 > 5 and then terminates the run normally: no
SignalDeliveryAnomaly or any other error is raised. -/
theorem C5_counterexample :
    executeDrainLoop 5 0 [3, 3] = some ([0, 3, 6], 6) ∧ 5 < 6 := by decide

/-- C5 amended: when a completion signal makes `computed` exceed `total`,
the control node raises nothing: the loop silently terminates the run as
soon as `computed` is at least `total`, returning with the overshoot; the
counter is never clamped — the final value is the exact sum of the
consumed signal amounts. -/
theorem C5_amended_silent_overshoot (total : Nat) (signals : List Nat)
    (trace : List Nat) (final : Nat)
    (h : executeDrainLoop total 0 signals = some (trace, final)) :
    total ≤ final ∧ ∃ p q, signals = p ++ q ∧ final = p.sum := by
  obtain ⟨hge, p, q, hpq, hsum⟩ :=
    executeDrainLoop_returns total signals 0 trace final h
  exact ⟨hge, p, q, hpq, by simpa using hsum⟩

/-- C5 amended witness: the overshooting run with total 5 and signals
[3, 3] terminates with final counter 6, the sum of both consumed
signals. -/
theorem C5_amended_witness :
    executeDrainLoop 5 0 [3, 3] = some ([0, 3, 6], 6) ∧
    (5 ≤ 6 ∧ ∃ p q, ([3, 3] : List Nat) = p ++ q ∧ 6 = p.sum) :=
  ⟨by decide, C5_amended_silent_overshoot 5 [3, 3] [0, 3, 6] 6 (by decide)⟩

/-- C6 counterexample: in `PostRiskCalculator.execute` (post_risk.py lines
123-141) a zero concurrency limit does not raise InvalidConfiguration
before task submission: with `concurrent_tasks = 0` and four curves the
block size is computed as if the limit were 1 and a task is submitted. -/
theorem C6_counterexample :
    postBlocksize 4 0 = postBlocksize 4 1 ∧
    submitLoop (postBlocksize 4 0) [] [0, 1, 2] = [[0, 1, 2]] := by decide

/-- C6 amended: a non-positive weight cap given to the (spec-modelled)
weighted block splitter is an InvalidConfiguration error, but a zero
concurrency limit is not an error anywhere in the reviewed calculators:
`oq.concurrent_tasks or 1` silently substitutes the default 1, the derived
block size is the one a limit of 1 would give, and tasks are submitted
normally. -/
theorem C6_amended_zero_concurrency {α κ : Type} [DecidableEq κ]
    (num_curves : Nat) (entries : List α) (w : α → ℚ) (k : α → κ)
    (mw : ℚ) (hmw : mw ≤ 0) (items : List α) :
    block_splitter w k mw items = Except.error invalidConfigMsg ∧
    postBlocksize num_curves 0 = postBlocksize num_curves 1 ∧
    submitLoop (postBlocksize num_curves 0) [] entries =
      submitLoop (postBlocksize num_curves 1) [] entries := by
  refine ⟨?_, rfl, rfl⟩
  simp [block_splitter, hmw]

/-- C6 amended witness: weight cap 0 is rejected by the splitter while
concurrency limit 0 is silently treated as 1 by the post_risk batching. -/
theorem C6_amended_witness :
    (0 : ℚ) ≤ 0 ∧
    (block_splitter (fun n : Nat => (n : ℚ)) (fun n : Nat => n) 0 [1, 2] =
       Except.error invalidConfigMsg ∧
     postBlocksize 4 0 = postBlocksize 4 1 ∧
     submitLoop (postBlocksize 4 0) [] [0, 1, 2] =
       submitLoop (postBlocksize 4 1) [] [0, 1, 2]) :=
  ⟨le_refl 0,
   C6_amended_zero_concurrency 4 [0, 1, 2] (fun n : Nat => (n : ℚ))
     (fun n : Nat => n) 0 (le_refl 0) [1, 2]⟩

/-- C9: for every kwargs mapping passed to `signal_task_complete` (base.py
lines 197-227): when the mapping has no `job_id` key the function raises a
KeyError before opening any broker connection and publishes nothing; when
it has one, the function opens the connection and publishes exactly one
message whose body is exactly the kwargs mapping, to the routing key
obtained from `ROUTING_KEY_FMT` — the same key `CalculatorNext.execute`
binds its task-signal queue to for that job id (base.py lines 26 and
107-110). -/
theorem C9_signal_task_complete (kwargs : List (String × String)) :
    (alookup kwargs jobIdKey = none →
      signal_task_complete kwargs = ([], Except.error keyErrorMsg)) ∧
    ∀ jid, alookup kwargs jobIdKey = some jid →
      signal_task_complete kwargs =
        ([BrokerEffect.openConn,
          BrokerEffect.publish (executeQueueRoutingKey jid) kwargs],
         Except.ok ()) := by
  constructor
  · intro h
    simp [signal_task_complete, h]
  · intro jid h
    simp [signal_task_complete, h, executeQueueRoutingKey]

/-- C9 witness: an empty kwargs dict raises KeyError with no broker
effect; a kwargs dict carrying job id 42 publishes exactly one message,
the dict itself, to the queue routing key the control node binds for job
42. -/
theorem C9_witness :
    signal_task_complete [] = ([], Except.error keyErrorMsg) ∧
    signal_task_complete [(jobIdKey, sampleJobId)] =
      ([BrokerEffect.openConn,
        BrokerEffect.publish (executeQueueRoutingKey sampleJobId)
          [(jobIdKey, sampleJobId)]],
       Except.ok ()) :=
  ⟨(C9_signal_task_complete []).1 rfl,
   (C9_signal_task_complete [(jobIdKey, sampleJobId)]).2 sampleJobId (by decide)⟩

/-- Concatenating the blocks emitted by the greedy splitting worker, in
order, restores the current block followed by the remaining input. -/
theorem splitGo_flatten {α κ : Type} [DecidableEq κ] (w : α → ℚ) (k : α → κ)
    (mw : ℚ) (l : List α) :
    ∀ cur curw pk, (splitGo w k mw cur curw pk l).flatten = cur ++ l := by
  induction l with
  | nil =>
    intro cur curw pk
    cases cur <;> simp [splitGo]
  | cons x rest ih =>
    intro cur curw pk
    cases cur with
    | nil => simp [splitGo, ih]
    | cons c cs =>
      simp only [splitGo, List.isEmpty_cons, Bool.false_eq_true, if_false]
      by_cases h : mw < curw + w x ∨ some (k x) ≠ pk
      · rw [if_pos h]
        simp [ih]
      · rw [if_neg h]
        simp [ih]

/-- C2: for every input sequence and every `maxWeight > 0`, the weighted
block splitter succeeds and concatenating the items of all produced
blocks, in block order, yields exactly the original input sequence: no
item is dropped, duplicated or reordered. -/
theorem C2_lossless_partition {α κ : Type} [DecidableEq κ] (w : α → ℚ)
    (k : α → κ) (maxWeight : ℚ) (items : List α) (h : 0 < maxWeight) :
    ∃ blocks, block_splitter w k maxWeight items = Except.ok blocks ∧
      blocks.flatten = items := by
  refine ⟨splitGo w k maxWeight [] 0 none items, ?_,
    by simpa using splitGo_flatten w k maxWeight items [] 0 none⟩
  simp [block_splitter, not_le.mpr h]

/-- C2 witness: spec end-to-end scenario 1, ten items of weight 1 in one
group with weight cap 3. -/
theorem C2_witness :
    (0 : ℚ) < 3 ∧
    ∃ blocks, block_splitter (fun _ : Nat => (1 : ℚ)) (fun _ : Nat => (0 : Nat)) 3
        [0, 1, 2, 3, 4, 5, 6, 7, 8, 9] = Except.ok blocks ∧
      blocks.flatten = [0, 1, 2, 3, 4, 5, 6, 7, 8, 9] :=
  ⟨by norm_num,
   C2_lossless_partition (fun _ : Nat => (1 : ℚ)) (fun _ : Nat => (0 : Nat)) 3
     [0, 1, 2, 3, 4, 5, 6, 7, 8, 9] (by norm_num)⟩

/-- Weight soundness of the greedy splitting worker: provided the running
weight matches the current block and the current block is admissible,
every emitted block either fits under the cap or is a single item whose
own weight exceeds the cap. -/
theorem splitGo_weight_ok {α κ : Type} [DecidableEq κ] (w : α → ℚ) (k : α → κ)
    (mw : ℚ) (l : List α) :
    ∀ cur curw pk, curw = (cur.map w).sum →
      ((cur.map w).sum ≤ mw ∨ ∃ x, cur = [x] ∧ mw < w x) →
      ∀ b ∈ splitGo w k mw cur curw pk l,
        (b.map w).sum ≤ mw ∨ ∃ x, b = [x] ∧ mw < w x := by
  induction l with
  | nil =>
    intro cur curw pk hw hok b hb
    cases cur with
    | nil => simp [splitGo] at hb
    | cons c cs =>
      simp [splitGo] at hb
      subst hb
      exact hok
  | cons x rest ih =>
    intro cur curw pk hw hok b hb
    cases cur with
    | nil =>
      simp only [splitGo, List.isEmpty_nil, if_true] at hb
      refine ih [x] (w x) (some (k x)) (by simp) ?_ b hb
      rcases le_or_lt (w x) mw with hle | hgt
      · exact Or.inl (by simpa using hle)
      · exact Or.inr ⟨x, rfl, hgt⟩
    | cons c cs =>
      simp only [splitGo, List.isEmpty_cons, Bool.false_eq_true, if_false] at hb
      by_cases hcond : mw < curw + w x ∨ some (k x) ≠ pk
      · rw [if_pos hcond] at hb
        rcases List.mem_cons.mp hb with h1 | h2
        · subst h1
          exact hok
        · refine ih [x] (w x) (some (k x)) (by simp) ?_ b h2
          rcases le_or_lt (w x) mw with hle | hgt
          · exact Or.inl (by simpa using hle)
          · exact Or.inr ⟨x, rfl, hgt⟩
      · rw [if_neg hcond] at hb
        push_neg at hcond
        refine ih ((c :: cs) ++ [x]) (curw + w x) (some (k x))
          (by simp [hw]; ring) ?_ b hb
        refine Or.inl ?_
        have hsum : (((c :: cs) ++ [x]).map w).sum = curw + w x := by
          simp [hw]
          ring
        rw [hsum]
        exact hcond.1

/-- C3: every block produced by the weighted block splitter either has
total weight at most `maxWeight`, or consists of exactly one item whose
own weight exceeds `maxWeight`; the oversized item is never dropped (C2)
and never split. -/
theorem C3_weight_bound {α κ : Type} [DecidableEq κ] (w : α → ℚ) (k : α → κ)
    (maxWeight : ℚ) (items : List α) (blocks : List (List α))
    (h : block_splitter w k maxWeight items = Except.ok blocks) :
    ∀ b ∈ blocks, (b.map w).sum ≤ maxWeight ∨ ∃ x, b = [x] ∧ maxWeight < w x := by
  unfold block_splitter at h
  by_cases hmw : maxWeight ≤ 0
  · simp [if_pos hmw] at h
  · rw [if_neg hmw] at h
    have hb : blocks = splitGo w k maxWeight [] 0 none items := by
      cases h
      rfl
    subst hb
    exact splitGo_weight_ok w k maxWeight items [] 0 none (by simp)
      (Or.inl (by simpa using le_of_not_le hmw))

/-- C3 witness: spec end-to-end scenario 2, a single item of weight 5 with
weight cap 3 forms a one-item oversized block. -/
theorem C3_witness :
    block_splitter (fun _ : Nat => (5 : ℚ)) (fun _ : Nat => (0 : Nat)) 3 [7] =
      Except.ok [[7]] ∧
    ∀ b ∈ [[7]], ((b.map fun _ : Nat => (5 : ℚ)).sum ≤ 3 ∨
      ∃ x, b = [x] ∧ (3 : ℚ) < (fun _ : Nat => (5 : ℚ)) x) :=
  ⟨by norm_num [block_splitter, splitGo],
   C3_weight_bound (fun _ : Nat => (5 : ℚ)) (fun _ : Nat => (0 : Nat)) 3 [7]
     [[7]] (by norm_num [block_splitter, splitGo])⟩

/-- Group soundness of the greedy splitting worker: provided every item of
the current block has the tracked previous key, no emitted block mixes two
group keys. -/
theorem splitGo_same_key {α κ : Type} [DecidableEq κ] (w : α → ℚ) (k : α → κ)
    (mw : ℚ) (l : List α) :
    ∀ cur curw pk, (∀ y ∈ cur, some (k y) = pk) →
      ∀ b ∈ splitGo w k mw cur curw pk l, ∀ x ∈ b, ∀ y ∈ b, k x = k y := by
  induction l with
  | nil =>
    intro cur curw pk hpk b hb x hx y hy
    cases cur with
    | nil => simp [splitGo] at hb
    | cons c cs =>
      simp [splitGo] at hb
      subst hb
      exact Option.some_injective _ ((hpk x hx).trans (hpk y hy).symm)
  | cons x0 rest ih =>
    intro cur curw pk hpk b hb
    cases cur with
    | nil =>
      simp only [splitGo, List.isEmpty_nil, if_true] at hb
      exact ih [x0] (w x0) (some (k x0)) (by simp) b hb
    | cons c cs =>
      simp only [splitGo, List.isEmpty_cons, Bool.false_eq_true, if_false] at hb
      by_cases hcond : mw < curw + w x0 ∨ some (k x0) ≠ pk
      · rw [if_pos hcond] at hb
        rcases List.mem_cons.mp hb with h1 | h2
        · subst h1
          intro x hx y hy
          exact Option.some_injective _ ((hpk x hx).trans (hpk y hy).symm)
        · exact ih [x0] (w x0) (some (k x0)) (by simp) b h2
      · rw [if_neg hcond] at hb
        push_neg at hcond
        refine ih ((c :: cs) ++ [x0]) (curw + w x0) (some (k x0)) ?_ b hb
        intro y hy
        rcases List.mem_append.mp hy with hy1 | hy2
        · rw [hpk y hy1, hcond.2]
        · simp only [List.mem_singleton] at hy2
          rw [hy2]

/-- C4: for every input sequence and every group-key accessor, no block
produced by the weighted block splitter contains items with two different
group-key values, even when items of distinct groups would jointly fit
under the weight cap. -/
theorem C4_no_mixed_groups {α κ : Type} [DecidableEq κ] (w : α → ℚ)
    (k : α → κ) (maxWeight : ℚ) (items : List α) (blocks : List (List α))
    (h : block_splitter w k maxWeight items = Except.ok blocks) :
    ∀ b ∈ blocks, ∀ x ∈ b, ∀ y ∈ b, k x = k y := by
  unfold block_splitter at h
  by_cases hmw : maxWeight ≤ 0
  · simp [if_pos hmw] at h
  · rw [if_neg hmw] at h
    have hb : blocks = splitGo w k maxWeight [] 0 none items := by
      cases h
      rfl
    subst hb
    exact splitGo_same_key w k maxWeight items [] 0 none (by simp)

/-- C4 witness: spec end-to-end scenario 3, groups 0 and 1 interleaved as
0, 1, 0, 1 with item weight 2 and cap 4: blocks never mix the two keys
although the combined weight of a pair would fit. -/
theorem C4_witness :
    block_splitter (fun _ : Nat => (2 : ℚ)) (fun n : Nat => n % 2) 4
      [0, 1, 2, 3] = Except.ok [[0], [1], [2], [3]] ∧
    ∀ b ∈ [[0], [1], [2], [3]], ∀ x ∈ b, ∀ y ∈ b, x % 2 = y % 2 :=
  ⟨by norm_num [block_splitter, splitGo],
   C4_no_mixed_groups (fun _ : Nat => (2 : ℚ)) (fun n : Nat => n % 2) 4
     [0, 1, 2, 3] [[0], [1], [2], [3]]
     (by norm_num [block_splitter, splitGo])⟩

/-- Reading a key that is not stored yields the identity element. -/
theorem aget_eq_zero_of_not_mem {κ V : Type} [DecidableEq κ] [AddCommMonoid V]
    (m : List (κ × V)) (key : κ) (h : key ∉ m.map Prod.fst) :
    aget m key = 0 := by
  induction m with
  | nil => rfl
  | cons e rest ih =>
    obtain ⟨k0, v0⟩ := e
    simp only [List.map_cons, List.mem_cons, not_or] at h
    simp only [aget, if_neg (fun hk : k0 = key => h.1 hk.symm)]
    exact ih h.2

/-- Reading after storing: the stored key returns the stored value and
every other key is unaffected. -/
theorem aget_aset {κ V : Type} [DecidableEq κ] [AddCommMonoid V]
    (m : List (κ × V)) (key k2 : κ) (v : V) :
    aget (aset m key v) k2 = if key = k2 then v else aget m k2 := by
  induction m with
  | nil => simp [aset, aget]
  | cons e rest ih =>
    obtain ⟨k0, v0⟩ := e
    by_cases h0 : k0 = key
    · subst h0
      simp only [aset, if_pos rfl]
      by_cases h2 : k0 = k2
      · subst h2
        simp [aget]
      · simp [aget, h2]
    · simp only [aset, if_neg h0]
      by_cases h2 : k0 = k2
      · subst h2
        have hk : key ≠ k0 := fun h => h0 h.symm
        simp [aget, hk]
      · simp [aget, h2, ih]

/-- Key membership after a store: the stored key and the previous keys. -/
theorem mem_keys_aset {κ V : Type} [DecidableEq κ] (m : List (κ × V))
    (key a : κ) (v : V) :
    a ∈ (aset m key v).map Prod.fst ↔ a = key ∨ a ∈ m.map Prod.fst := by
  induction m with
  | nil => simp [aset]
  | cons e rest ih =>
    obtain ⟨k0, v0⟩ := e
    by_cases h0 : k0 = key
    · subst h0
      have heq : aset ((k0, v0) :: rest) k0 v = (k0, v) :: rest := by
        simp [aset]
      rw [heq]
      simp only [List.map_cons, List.mem_cons]
      tauto
    · simp only [aset, if_neg h0, List.map_cons, List.mem_cons, ih]
      tauto

/-- Storing preserves distinctness of the keys. -/
theorem aset_nodupKeys {κ V : Type} [DecidableEq κ] (m : List (κ × V))
    (key : κ) (v : V) (h : NodupKeys m) : NodupKeys (aset m key v) := by
  induction m with
  | nil => simp [aset, NodupKeys]
  | cons e rest ih =>
    obtain ⟨k0, v0⟩ := e
    simp only [NodupKeys, List.map_cons, List.nodup_cons] at h
    by_cases h0 : k0 = key
    · subst h0
      have heq : aset ((k0, v0) :: rest) k0 v = (k0, v) :: rest := by
        simp [aset]
      rw [NodupKeys, heq]
      simp only [List.map_cons, List.nodup_cons]
      exact h
    · simp only [NodupKeys, aset, if_neg h0, List.map_cons, List.nodup_cons]
      refine ⟨?_, ih h.2⟩
      intro hmem
      rcases (mem_keys_aset rest key k0 v).mp hmem with h1 | h2
      · exact h0 h1
      · exact h.1 h2

/-- Merging preserves distinctness of the keys of the accumulator. -/
theorem amerge_nodupKeys {κ V : Type} [DecidableEq κ] [AddCommMonoid V]
    (b : List (κ × V)) :
    ∀ a : List (κ × V), NodupKeys a → NodupKeys (amerge a b) := by
  induction b with
  | nil => exact fun a ha => ha
  | cons e rest ih =>
    intro a ha
    exact ih (aset a e.1 (aget a e.1 + e.2)) (aset_nodupKeys a e.1 _ ha)

/-- Extensional behaviour of the accumulating merge: at every key, the
merged map reads as the sum of the two reads, provided the second map has
distinct keys. -/
theorem aget_amerge {κ V : Type} [DecidableEq κ] [AddCommMonoid V]
    (b : List (κ × V)) :
    NodupKeys b → ∀ (a : List (κ × V)) (key : κ),
      aget (amerge a b) key = aget a key + aget b key := by
  induction b with
  | nil =>
    intro _ a key
    simp [amerge, aget]
  | cons e rest ih =>
    intro hb a key
    obtain ⟨k0, v0⟩ := e
    simp only [NodupKeys, List.map_cons, List.nodup_cons] at hb
    have step : amerge a ((k0, v0) :: rest) =
        amerge (aset a k0 (aget a k0 + v0)) rest := rfl
    rw [step, ih hb.2 (aset a k0 (aget a k0 + v0)) key, aget_aset]
    by_cases hk : k0 = key
    · subst hk
      rw [if_pos rfl, aget_eq_zero_of_not_mem rest k0 hb.1]
      simp [aget]
    · rw [if_neg hk]
      simp [aget, hk]

/-- Folding a list of partial-result maps into an accumulator reads, at
every key, as the read of the accumulator plus the sum of the reads of
the folded maps. -/
theorem aget_foldl_amerge {κ V : Type} [DecidableEq κ] [AddCommMonoid V]
    (l : List (List (κ × V))) :
    (∀ m ∈ l, NodupKeys m) → ∀ (acc : List (κ × V)) (key : κ),
      aget (List.foldl amerge acc l) key =
        aget acc key + (l.map (fun m => aget m key)).sum := by
  induction l with
  | nil =>
    intro _ acc key
    simp
  | cons m rest ih =>
    intro h acc key
    simp only [List.foldl_cons, List.map_cons, List.sum_cons]
    rw [ih (fun x hx => h x (List.mem_cons_of_mem m hx)) (amerge acc m) key,
      aget_amerge m (h m (List.mem_cons_self m rest)) acc key, add_assoc]

/-- C7: the accumulating-map merge is commutative and associative as a map
(elementwise addition per key), and merging a finite collection of
partial-result maps in any order yields the same final accumulated
mapping, so the final result is independent of task completion order
(merge semantics modelled from spec sections 3 and 4.2; callers at
preclassical.py lines 92-96 and post_risk.py lines 60-65). -/
theorem C7_merge_order_independent {κ V : Type} [DecidableEq κ]
    [AddCommMonoid V] (a b c : List (κ × V))
    (ha : NodupKeys a) (hb : NodupKeys b) (hc : NodupKeys c)
    (l1 l2 : List (List (κ × V))) (hl : ∀ m ∈ l1, NodupKeys m)
    (hp : l1.Perm l2) :
    (∀ key, aget (amerge a b) key = aget (amerge b a) key) ∧
    (∀ key, aget (amerge (amerge a b) c) key =
      aget (amerge a (amerge b c)) key) ∧
    (∀ key, aget (mergeAll l1) key = aget (mergeAll l2) key) := by
  refine ⟨fun key => ?_, fun key => ?_, fun key => ?_⟩
  · rw [aget_amerge b hb a key, aget_amerge a ha b key, add_comm]
  · rw [aget_amerge c hc (amerge a b) key, aget_amerge b hb a key,
      aget_amerge (amerge b c) (amerge_nodupKeys c b hb) a key,
      aget_amerge c hc b key, add_assoc]
  · unfold mergeAll
    rw [aget_foldl_amerge l1 hl [] key,
      aget_foldl_amerge l2 (fun m hm => hl m (hp.mem_iff.mpr hm)) [] key]
    congr 1
    exact List.Perm.sum_eq (hp.map (fun m => aget m key))

/-- C7 witness: three concrete partial-result maps over rational values,
merged pairwise both ways, reassociated, and folded in two permuted
orders. -/
theorem C7_witness :
    NodupKeys [((0 : Nat), (1 : ℚ))] ∧
    NodupKeys [((0 : Nat), (2 : ℚ)), (1, 3)] ∧
    ((∀ key, aget (amerge [((0 : Nat), (1 : ℚ))] [(0, 2), (1, 3)]) key =
        aget (amerge [(0, 2), (1, 3)] [(0, 1)]) key) ∧
     (∀ key, aget (amerge (amerge [((0 : Nat), (1 : ℚ))] [(0, 2), (1, 3)])
          [(1, 5)]) key =
        aget (amerge [(0, 1)] (amerge [(0, 2), (1, 3)] [(1, 5)])) key) ∧
     (∀ key, aget (mergeAll [[((0 : Nat), (1 : ℚ))], [(0, 2), (1, 3)]]) key =
        aget (mergeAll [[((0 : Nat), (2 : ℚ)), (1, 3)], [(0, 1)]]) key)) :=
  ⟨by decide, by decide,
   C7_merge_order_independent [(0, 1)] [(0, 2), (1, 3)] [(1, 5)]
     (by decide) (by decide) (by decide)
     [[(0, 1)], [(0, 2), (1, 3)]] [[(0, 2), (1, 3)], [(0, 1)]]
     (by decide) (List.Perm.swap [(0, 2), (1, 3)] [(0, 1)] [])⟩

end OQ
